import Mathlib

/-
Verification of the `kegbot-pyutils` package against its specification.

The development shallowly embeds the relevant parts of the package:
  - `kegbot/util/kbjson.py`: the JSON encode/decode wrapper that converts
    datetime values to and from ISO-8601 strings (`JSONEncoder.default`,
    `_ToAttrDict`, `loads`, `dumps`).
  - `kegbot/util/util.py`: the `Enum` factory and the `EnumValue`
    operations, the `BaseMessage`/`BaseField` declarative record system,
    and `SimpleGraph.ShortestPath`.
  - `kegbot/util/app.py`: `App._CheckAndRecordPid`, `App._Teardown` and the
    quit-driven main loop, over an explicit file-system/process state.

Machine integers do not occur (Python integers are unbounded); Python
exceptions are modelled with `Option`/`Except`.
-/

/-! ## Python datetime values

A `datetime.datetime` as the package sees it: calendar fields plus an
optional fixed UTC offset in minutes (`None` tzinfo = no offset).  Python
restricts the year to 1..9999, the clock fields to their usual ranges and
a UTC offset to less than a day in magnitude. -/

structure PyDateTime where
  year : Nat
  month : Nat
  day : Nat
  hour : Nat
  minute : Nat
  second : Nat
  microsecond : Nat
  tzOffsetMinutes : Option Int
deriving DecidableEq, Repr

/-- The invariants Python enforces on every constructed `datetime` value
(the day bound is the coarse 1..31 bound; a finer calendar bound only
shrinks the set of values quantified over). -/
def PyDateTime.valid (t : PyDateTime) : Bool :=
  1 ≤ t.year && t.year ≤ 9999 && 1 ≤ t.month && t.month ≤ 12 &&
  1 ≤ t.day && t.day ≤ 31 && t.hour ≤ 23 && t.minute ≤ 59 &&
  t.second ≤ 59 && t.microsecond ≤ 999999 &&
  (match t.tzOffsetMinutes with
   | none => true
   | some off => off.natAbs ≤ 1439)

/-! ## isodate.datetime_isoformat

`kbjson.JSONEncoder.default` renders a datetime with
`isodate.datetime_isoformat`, whose default format is
`%Y-%m-%dT%H:%M:%S%Z`: zero-padded calendar fields, no microseconds, and
a timezone suffix that is empty for a naive value, `Z` for offset zero
and a signed `hh:mm` otherwise. -/

def pad2 (n : Nat) : List Char :=
  [Nat.digitChar (n / 10), Nat.digitChar (n % 10)]

def pad4 (n : Nat) : List Char :=
  pad2 (n / 100) ++ pad2 (n % 100)

/-- The `%Z` suffix of `isodate.isostrf.tz_isoformat`. -/
def tzChars : Option Int → List Char
  | none => []
  | some off =>
    if off = 0 then ['Z']
    else (if 0 < off then '+' else '-') ::
      (pad2 (off.natAbs / 60) ++ ':' :: pad2 (off.natAbs % 60))

def datetimeChars (t : PyDateTime) : List Char :=
  pad4 t.year ++ '-' :: (pad2 t.month ++ '-' :: (pad2 t.day ++
    'T' :: (pad2 t.hour ++ ':' :: (pad2 t.minute ++ ':' :: (pad2 t.second ++
      tzChars t.tzOffsetMinutes)))))

/-- `isodate.datetime_isoformat` with its default format
`DT_EXT_COMPLETE`, as invoked by `kbjson.JSONEncoder.default`. -/
def datetime_isoformat (t : PyDateTime) : String :=
  ⟨datetimeChars t⟩

/-! ## isodate.parse_datetime

A model of `isodate.parse_datetime` on the extended complete grammar
`YYYY-MM-DD T hh:mm:ss[.ffffff][Z|±hh[:mm]]` — exactly the family of
strings `datetime_isoformat` emits, plus the optional fractional-second
and short timezone forms of the same regular expression; every other
string is rejected (`none`, standing for the `ValueError` the library
raises).  Field bounds are validated as `datetime.date`/`datetime.time`
construction does, with the day bound coarsened to 31. -/

def readDigit (c : Char) : Option Nat :=
  if '0' ≤ c ∧ c ≤ '9' then some (c.toNat - '0'.toNat) else none

def read2 : List Char → Option (Nat × List Char)
  | c1 :: c2 :: rest => do
    let d1 ← readDigit c1
    let d2 ← readDigit c2
    pure (d1 * 10 + d2, rest)
  | _ => none

def read4 (cs : List Char) : Option (Nat × List Char) := do
  let (h, cs) ← read2 cs
  let (l, cs) ← read2 cs
  pure (h * 100 + l, cs)

def expectChar (c : Char) : List Char → Option (List Char)
  | x :: rest => if x = c then some rest else none
  | [] => none

def fracDigits : List Char → (List Nat × List Char)
  | c :: rest =>
    match readDigit c with
    | some d => let p := fracDigits rest; (d :: p.1, p.2)
    | none => ([], c :: rest)
  | [] => ([], [])

/-- Microseconds denoted by a fractional-second digit string. -/
def microOfDigits (ds : List Nat) : Nat :=
  ((ds.take 6).foldl (fun a d => a * 10 + d) 0) * 10 ^ (6 - min 6 ds.length)

def readFrac : List Char → Option (Nat × List Char)
  | '.' :: rest =>
    match fracDigits rest with
    | ([], _) => none
    | (ds, r) => some (microOfDigits ds, r)
  | ',' :: rest =>
    match fracDigits rest with
    | ([], _) => none
    | (ds, r) => some (microOfDigits ds, r)
  | cs => some (0, cs)

/-- The magnitude (in minutes) of a `hh`, `hh:mm` or `hhmm` timezone
suffix; consumes the whole list. -/
def parseTzMag (cs : List Char) : Option Nat := do
  let (hh, cs) ← read2 cs
  match cs with
  | [] => pure (hh * 60)
  | ':' :: rest => do
    let (mm, r) ← read2 rest
    if r = [] then pure (hh * 60 + mm) else none
  | rest => do
    let (mm, r) ← read2 rest
    if r = [] then pure (hh * 60 + mm) else none

def parseTzTail : List Char → Option (Option Int)
  | [] => some none
  | ['Z'] => some (some 0)
  | '+' :: rest => (parseTzMag rest).map (fun m => some (m : Int))
  | '-' :: rest => (parseTzMag rest).map (fun m => some (-(m : Int)))
  | _ => none

def parse_datetime (s : String) : Option PyDateTime := do
  let cs := s.data
  let (y, cs) ← read4 cs
  let cs ← expectChar '-' cs
  let (mo, cs) ← read2 cs
  let cs ← expectChar '-' cs
  let (d, cs) ← read2 cs
  let cs ← expectChar 'T' cs
  let (h, cs) ← read2 cs
  let cs ← expectChar ':' cs
  let (mi, cs) ← read2 cs
  let cs ← expectChar ':' cs
  let (se, cs) ← read2 cs
  let (micro, cs) ← readFrac cs
  let tz ← parseTzTail cs
  if 1 ≤ y ∧ 1 ≤ mo ∧ mo ≤ 12 ∧ 1 ≤ d ∧ d ≤ 31 ∧ h ≤ 23 ∧ mi ≤ 59 ∧ se ≤ 59 then
    pure ⟨y, mo, d, h, mi, se, micro, tz⟩
  else
    none

/-! ## The JSON document layer

`kbjson.dumps` and `kbjson.loads` wrap the standard `json` module; the
textual serialization itself is out of scope (the spec delegates it to
the standard codec), so documents are modelled as trees and the textual
round trip as the identity on them.  `JValue.jdatetime` can occur in a
document handed to `dumps`; the wire form produced by `dumps` is free of
it. -/

inductive JValue where
  | jnull
  | jbool (b : Bool)
  | jnum (n : Int)
  | jstr (s : String)
  | jdatetime (t : PyDateTime)
  | jarr (xs : List JValue)
  | jobj (kvs : List (String × JValue))

mutual

/-- `kbjson.JSONEncoder` serialization: containers and scalars follow the
standard encoder; a datetime hits `JSONEncoder.default` and becomes its
ISO-8601 string. -/
def encodeValue : JValue → JValue
  | .jdatetime t => .jstr (datetime_isoformat t)
  | .jarr xs => .jarr (encodeList xs)
  | .jobj kvs => .jobj (encodeObj kvs)
  | v => v

/-- Elementwise encoding of a JSON array. -/
def encodeList : List JValue → List JValue
  | [] => []
  | x :: xs => encodeValue x :: encodeList xs

/-- Entrywise encoding of a JSON object. -/
def encodeObj : List (String × JValue) → List (String × JValue)
  | [] => []
  | (k, v) :: kvs => (k, encodeValue v) :: encodeObj kvs
end

/-- Python `str.endswith`, as used on the keys in `_ToAttrDict`. -/
def strEndsWith (s suf : String) : Bool :=
  suf.data.isSuffixOf s.data

/-- Python `str.startswith`, as used on the keys in `_ToAttrDict`. -/
def strStartsWith (s pre : String) : Bool :=
  pre.data.isPrefixOf s.data

/-- The key heuristic of `_ToAttrDict` (kbjson.py line 64). -/
def matchesHeuristic (k : String) : Bool :=
  strEndsWith k "date" || strEndsWith k "time" ||
  strStartsWith k "date" || strStartsWith k "last_login"

/-- The per-entry conversion `_ToAttrDict` performs inside a decoded
dict: a string value under a heuristic-matching key is replaced by its
parsed datetime when `isodate.parse_datetime` succeeds and kept as the
original string when it raises `ValueError`; every other value is left
alone. -/
def convertEntry (k : String) : JValue → JValue
  | .jstr s =>
    if matchesHeuristic k then
      match parse_datetime s with
      | some t => .jdatetime t
      | none => .jstr s
    else .jstr s
  | v => v

/-- `kbjson._ToAttrDict`: the `object_hook` passed to `json.loads`.  It
receives each decoded dict (an `AttrDict` is the same mapping, only with
attribute access added) and rewrites its entries; any non-dict argument
is returned unchanged. -/
def ToAttrDict : JValue → JValue
  | .jobj kvs => .jobj (kvs.map (fun kv => (kv.1, convertEntry kv.1 kv.2)))
  | v => v

mutual

/-- The standard decoder with `object_hook=_ToAttrDict`: the hook is
applied to every object, bottom-up. -/
def decodeValue : JValue → JValue
  | .jarr xs => .jarr (decodeList xs)
  | .jobj kvs => ToAttrDict (.jobj (decodeObj kvs))
  | v => v

/-- Elementwise decoding of a JSON array. -/
def decodeList : List JValue → List JValue
  | [] => []
  | x :: xs => decodeValue x :: decodeList xs

/-- Entrywise decoding of a JSON object (hook applied to the inner
values first). -/
def decodeObj : List (String × JValue) → List (String × JValue)
  | [] => []
  | (k, v) :: kvs => (k, decodeValue v) :: decodeObj kvs
end

/-- `kbjson.dumps` at the document level (the textual JSON layer is the
standard codec, out of scope, modelled as the identity). -/
def dumps (v : JValue) : JValue := encodeValue v

/-- `kbjson.loads` at the document level. -/
def loads (v : JValue) : JValue := decodeValue v

/-- The entries of a decoded document that is an object. -/
def objEntries : JValue → List (String × JValue)
  | .jobj kvs => kvs
  | _ => []

/-! ## util.Enum

`util.Enum(*defs)` takes names, each optionally paired with an explicit
ordinal.  The construction loop (util.py lines 80-91) resolves each
ordinal — the running counter for a plain name, the explicit value for a
pair — asserts it is not already taken, and sets the counter to the
resolved ordinal plus one.  `assert defs` (line 40) rejects an empty
argument list.  A failed assertion is modelled as `none`. -/

inductive EnumItem where
  | plain (name : String)
  | withIdx (name : String) (idx : Int)
deriving DecidableEq, Repr

/-- The resolved `(name, ordinal)` of one item given the running counter. -/
def EnumItem.resolve : EnumItem → Int → String × Int
  | .plain n, i => (n, i)
  | .withIdx n j, _ => (n, j)

/-- The construction loop of `Enum`: `i` is the running counter, `used`
the ordinals already present in `constants`. -/
def enumAssign : List EnumItem → Int → List Int → Option (List (String × Int))
  | [], _, _ => some []
  | item :: rest, i, used =>
    let r := item.resolve i
    if r.2 ∈ used then none
    else (enumAssign rest (r.2 + 1) (r.2 :: used)).map (fun l => r :: l)

/-- `util.Enum`: the produced constants as their `(name, ordinal)` list
(an `EnumValue` holds exactly its ordinal; `constants` keys them by it). -/
def Enum (defs : List EnumItem) : Option (List (String × Int)) :=
  if defs = [] then none else enumAssign defs 0 []

/-- The assignment rule in the words of the spec: ordinals are
sequential starting at 0, and an explicit override resets the sequence
counter to the override plus one for subsequent unspecified entries. -/
def specOrdinals : List EnumItem → Int → List (String × Int)
  | [], _ => []
  | .plain n :: rest, i => (n, i) :: specOrdinals rest (i + 1)
  | .withIdx n j :: rest, _ => (n, j) :: specOrdinals rest (j + 1)

/-- The ordinals of a produced constant set. -/
def ordinalsOf (l : List (String × Int)) : List Int :=
  l.map Prod.snd

/-- An `EnumValue` (util.py lines 63-76): its ordinal plus the identity
of the `EnumType` instance it belongs to (`self.EnumType is
other.EnumType` compares object identity; values made by different
`Enum` calls carry different identities). -/
structure EnumValue where
  setId : Nat
  value : Int
deriving DecidableEq, Repr

/-- Python 2 `cmp` on integers. -/
def pyCmp (a b : Int) : Int :=
  if a < b then -1 else if a = b then 0 else 1

/-- `EnumValue.__cmp__`: asserts both values come from the same
enumerated set before comparing ordinals; `none` models the assertion
failure. -/
def EnumValue.cmp (a b : EnumValue) : Option Int :=
  if a.setId = b.setId then some (pyCmp a.value b.value) else none

/-- `EnumValue.__invert__`: `constants[maximum - self.__value]`, where
`maximum = len(names) - 1` counts the declared names and `constants` is
keyed by ordinal; the returned constant is its ordinal, and a missing
key (`KeyError`) is `none`. -/
def EnumInvert (l : List (String × Int)) (numNames : Nat) (v : Int) : Option Int :=
  if ((numNames : Int) - 1 - v) ∈ ordinalsOf l then some ((numNames : Int) - 1 - v)
  else none

/-- The largest ordinal of a (nonempty) constant set — the quantity the
claim calls the maximum ordinal. -/
def maxOrdinal : List (String × Int) → Int
  | [] => 0
  | p :: rest => rest.foldl (fun m q => max m q.2) p.2

/-- `EnumValue.__bool__`: `bool(self.__value)`. -/
def pyBool (v : Int) : Bool :=
  decide (v ≠ 0)

/-- `EnumValue.__hash__`: `hash(self.__value)`, parametric in the
platform integer hash. -/
def enumHash (pyHash : Int → Int) (e : EnumValue) : Int :=
  pyHash e.value

/-! ## util.BaseMessage / util.BaseField

A record instance owns `_fields` (a copy of the class field mapping) and
`_values` (field name to current value, `None` for unset).  `add_field`
installs a property per declared field: the getter returns
`self._values[name]`, the setter routes the value through
`self._fields[name].ParseValue` before storing it.  A `setattr` with a
name that has no property silently creates an ordinary instance
attribute (`extra` below); `SetValue` checks membership in `_values` and
raises `KeyError` for unknown names. -/

inductive PyVal where
  | vnone
  | vint (n : Int)
  | vstr (s : String)
deriving DecidableEq, Repr

/-- A field descriptor: `ParseValue` validates (possibly raising
`ValueError`, the error case) and returns the value to store.
`BaseField.ParseValue` calls `_Validate` then returns the value
unchanged. -/
structure BaseField where
  ParseValue : PyVal → Except String PyVal

/-- `util.BaseField` itself: `_Validate` passes, so every value is
accepted unchanged. -/
def defaultBaseField : BaseField :=
  ⟨fun v => .ok v⟩

inductive PyErr where
  | keyError
  | attributeError
  | valueError (msg : String)
deriving DecidableEq, Repr

structure MsgState where
  fields : List (String × BaseField)
  values : List (String × PyVal)
  extra : List (String × PyVal)

/-- Python dict assignment `d[k] = v` on an association list. -/
def setAssoc {β : Type} (l : List (String × β)) (k : String) (v : β) :
    List (String × β) :=
  match l with
  | [] => [(k, v)]
  | (k1, v1) :: rest =>
    if k1 = k then (k, v) :: rest else (k1, v1) :: setAssoc rest k v

/-- `setattr(msg, k, v)`: a declared field goes through the property
setter installed by `add_field` (parse, then store); any other name is
silently stored as a plain instance attribute. -/
def msgSetattr (st : MsgState) (k : String) (v : PyVal) : Except PyErr MsgState :=
  match st.fields.lookup k with
  | some f =>
    match f.ParseValue v with
    | .error e => .error (.valueError e)
    | .ok v2 => .ok { st with values := setAssoc st.values k v2 }
  | none => .ok { st with extra := setAssoc st.extra k v }

/-- `getattr(msg, k)`: a declared field reads `self._values[name]`
directly; another name reads the instance attribute or raises
`AttributeError`. -/
def msgGetattr (st : MsgState) (k : String) : Except PyErr PyVal :=
  match st.fields.lookup k with
  | some _ =>
    match st.values.lookup k with
    | some v => .ok v
    | none => .error .keyError
  | none =>
    match st.extra.lookup k with
    | some v => .ok v
    | none => .error .attributeError

/-- `BaseMessage._UpdateFromDict`: `setattr` per entry; the first raised
error propagates. -/
def msgUpdateFromDict (st : MsgState) : List (String × PyVal) → Except PyErr MsgState
  | [] => .ok st
  | (k, v) :: rest =>
    match msgSetattr st k v with
    | .error e => .error e
    | .ok st2 => msgUpdateFromDict st2 rest

/-- `BaseMessage.__init__`: values start as `None` for every declared
field, then the initializer mapping (when given) or the keyword
overrides are applied. -/
def msgInit (classFields : List (String × BaseField))
    (initial : Option (List (String × PyVal))) (kwargs : List (String × PyVal)) :
    Except PyErr MsgState :=
  let st : MsgState :=
    ⟨classFields, classFields.map (fun p => (p.1, PyVal.vnone)), []⟩
  match initial with
  | some d => msgUpdateFromDict st d
  | none => msgUpdateFromDict st kwargs

/-- `BaseMessage.SetValue`: raises `KeyError` when the field name is not
a key of `_values`, and otherwise stores the value directly (no
validation). -/
def msgSetValue (st : MsgState) (k : String) (v : PyVal) : Except PyErr MsgState :=
  if (st.values.lookup k).isSome then
    .ok { st with values := setAssoc st.values k v }
  else .error .keyError

/-! ## app.App: PID file handling and quit-driven shutdown

`App._CheckAndRecordPid` (app.py lines 119-144) runs over the process
state: the file system (path to content), the liveness of process ids
(`util.PidIsAlive`), and the current process id.  `sys.exit(1)` is the
`Except.error 1` case.  Reading the file never fails in the model (the
`IOError` branch of the same lines also exits 1 but needs a failing
`open`, outside the file-system model); writing always succeeds. -/

structure AppFlags where
  pidfile : String

structure SysState where
  fs : List (String × String)
  alive : Int → Bool
  myPid : Int

/-- Python `str.strip` (whitespace from both ends). -/
def stripChars (cs : List Char) : List Char :=
  ((cs.dropWhile Char.isWhitespace).reverse.dropWhile Char.isWhitespace).reverse

/-- The numeric value of a digit string. -/
def digitsVal (ds : List Char) : Nat :=
  ds.foldl (fun a c => a * 10 + (c.toNat - '0'.toNat)) 0

/-- Python `int(s)` on a string: strip, optional sign, one or more
digits; anything else raises `ValueError` (`none`). -/
def pyInt (s : String) : Option Int :=
  match stripChars s.data with
  | [] => none
  | '-' :: ds =>
    if ds ≠ [] ∧ ds.all Char.isDigit then some (-(digitsVal ds : Int)) else none
  | '+' :: ds =>
    if ds ≠ [] ∧ ds.all Char.isDigit then some (digitsVal ds : Int) else none
  | ds =>
    if ds.all Char.isDigit then some (digitsVal ds : Int) else none

/-- `file.readline()` of the whole content, up to the newline. -/
def firstLine (s : String) : String :=
  ⟨s.data.takeWhile (fun c => c ≠ '\n')⟩

/-- `App._CheckAndRecordPid`: nothing to do without a configured PID
file path; an existing file is read and `int(...)` parsed (failure exits
with code 1), a recorded process that is still alive exits with code 1;
otherwise the current pid is written as a decimal line. -/
def CheckAndRecordPid (fl : AppFlags) (sys : SysState) : Except Nat SysState :=
  if fl.pidfile = "" then .ok sys
  else
    let write : Except Nat SysState :=
      .ok { sys with fs := setAssoc sys.fs fl.pidfile (toString sys.myPid ++ "\n") }
    match sys.fs.lookup fl.pidfile with
    | some content =>
      match pyInt (firstLine content) with
      | none => .error 1
      | some oldPid => if sys.alive oldPid then .error 1 else write
    | none => write

/-- `App._Teardown`: deletes the PID file when one is configured. -/
def Teardown (fl : AppFlags) (sys : SysState) : SysState :=
  if fl.pidfile = "" then sys
  else { sys with fs := sys.fs.filter (fun p => p.1 ≠ fl.pidfile) }

/-- The quit flag plus process state; `Quit` sets `_do_quit` (thread and
logging shutdown touch neither the file system nor the flag model). -/
structure AppState where
  sys : SysState
  doQuit : Bool

/-- `App.Quit`, restricted to its effect on the modelled state. -/
def appQuit (st : AppState) : AppState :=
  { st with doQuit := true }

/-- `App._MainLoop`: waits in bounded increments until `_do_quit` holds.
Nothing in the sequential model clears or sets the flag inside the loop,
so the loop exits exactly when the flag is set; the fuel only renders
the wait finite. -/
def appMainLoop : Nat → AppState → Option AppState
  | 0, st => if st.doQuit then some st else none
  | fuel + 1, st => if st.doQuit then some st else appMainLoop fuel st

/-- `App.Start` on the modelled state: `_CheckAndRecordPid` (a failed
check exits the process, so neither the main loop nor `_Teardown`
runs), then the main loop, then `_Teardown`.  (`_Setup` and
`_StartThreads` touch no modelled state.) -/
def Start (fl : AppFlags) (st : AppState) : Except Nat AppState :=
  match CheckAndRecordPid fl st.sys with
  | .error c => .error c
  | .ok sys2 =>
    match appMainLoop 1 { sys := sys2, doQuit := st.doQuit } with
    | none => .error 0
    | some st2 => .ok { st2 with sys := Teardown fl st2.sys }

/-! ## util.SimpleGraph.ShortestPath

The graph is built from unidirectional edges; `_graph` maps a vertex to
the set of its successors (a key exists exactly when the vertex has an
outgoing edge, and `ShortestPath` returns `None` for a missing key,
which coincides with an empty successor iteration).  `ShortestPath`
extends `path` with `start`, succeeds on `start == end`, and otherwise
takes the shortest result of recursing into each successor not already
on the path.  Python recursion needs no fuel; the fuel argument only
makes the recursion structural, and any bound at least
`spFuel` is sufficient (`avail` strictly decreases along calls). -/

def succList (g : List (Nat × Nat)) (a : Nat) : List Nat :=
  ((g.filter (fun e => e.1 = a)).map Prod.snd).dedup

mutual

/-- `SimpleGraph.ShortestPath(start, end, path)` with explicit fuel. -/
def shortestPathAux (g : List (Nat × Nat)) :
    Nat → Nat → Nat → List Nat → Option (List Nat)
  | 0, _, _, _ => none
  | fuel + 1, start, en, path =>
    let path2 := path ++ [start]
    if start = en then some path2
    else tryNodes g fuel (succList g start) en path2 none

/-- The `for node in self._graph[start]` loop: skip nodes already on the
path, recurse, and keep the strictly shorter of the recursive result and
the best so far. -/
def tryNodes (g : List (Nat × Nat)) (fuel : Nat) :
    List Nat → Nat → List Nat → Option (List Nat) → Option (List Nat)
  | [], _, _, shortest => shortest
  | node :: rest, en, path2, shortest =>
    if node ∈ path2 then tryNodes g fuel rest en path2 shortest
    else
      let shortest2 :=
        match shortestPathAux g fuel node en path2 with
        | none => shortest
        | some newpath =>
          match shortest with
          | none => some newpath
          | some sp => if newpath.length < sp.length then some newpath else shortest
      tryNodes g fuel rest en path2 shortest2
end

/-- A fuel bound larger than any possible recursion depth: every vertex
appended to the path beyond the first is an edge target, and the path
never repeats a vertex. -/
def spFuel (g : List (Nat × Nat)) : Nat :=
  ((g.map Prod.snd).dedup).length + 2

/-- `SimpleGraph.ShortestPath(start, end)` with the default empty path. -/
def ShortestPath (g : List (Nat × Nat)) (s e : Nat) : Option (List Nat) :=
  shortestPathAux g (spFuel g) s e []

/-- Edges of the built graph: `b` is a successor of `a`. -/
def IsEdge (g : List (Nat × Nat)) (a b : Nat) : Prop :=
  (a, b) ∈ g

/-- `p` is a walk in `g` from `s` to `e` (repetitions allowed). -/
def IsPath (g : List (Nat × Nat)) (p : List Nat) (s e : Nat) : Prop :=
  p.head? = some s ∧ p.getLast? = some e ∧ p.Chain' (IsEdge g)

/-- `q` is a repetition-free walk from `s` to `e` avoiding `avoid`. -/
def SimpleFrom (g : List (Nat × Nat)) (q : List Nat) (s e : Nat)
    (avoid : List Nat) : Prop :=
  q.head? = some s ∧ q.getLast? = some e ∧ q.Chain' (IsEdge g) ∧ q.Nodup ∧
    ∀ x ∈ q, x ∉ avoid

/-- The number of potential path vertices not yet used: recursion depth
is bounded by it. -/
def avail (g : List (Nat × Nat)) (l : List Nat) : Nat :=
  ((g.map Prod.snd).toFinset \ l.toFinset).card

/-! ## Concrete instances used by counterexamples and witnesses -/

/-- A datetime with a nonzero microsecond component (otherwise the
instant of the decode test of the repository). -/
def tMicro : PyDateTime := ⟨2010, 6, 11, 23, 1, 1, 1000, none⟩

/-- `tMicro` truncated to whole seconds. -/
def tTrunc : PyDateTime := ⟨2010, 6, 11, 23, 1, 1, 0, none⟩

/-- A record type with one declared field of the default descriptor. -/
def demoFields : List (String × BaseField) := [("a", defaultBaseField)]

/-- A field descriptor whose `_Validate` rejects every non-integer. -/
def intOnlyField : BaseField :=
  ⟨fun v => match v with
    | .vint n => .ok (.vint n)
    | _ => .error "InvalidFieldValue"⟩

/-- A freshly constructed record over `{a: intOnlyField}`. -/
def demoIntSt : MsgState :=
  ⟨[("a", intOnlyField)], [("a", PyVal.vnone)], []⟩

/-- A field descriptor whose `_Validate` rejects every value. -/
def rejectField : BaseField :=
  ⟨fun _ => .error "InvalidFieldValue"⟩

/-- A freshly constructed record over `{a: rejectField}`. -/
def demoRejSt : MsgState :=
  ⟨[("a", rejectField)], [("a", PyVal.vnone)], []⟩

/-- `demoRejSt` after `SetValue("a", 7)` (which bypasses validation). -/
def demoRejSt7 : MsgState :=
  ⟨[("a", rejectField)], [("a", PyVal.vint 7)], []⟩

/-- A configured PID file path. -/
def demoFlags : AppFlags := ⟨"/tmp/test.pid"⟩

/-- A system whose PID file exists but holds no integer, and in which no
process is alive. -/
def demoSysGarbage : SysState :=
  ⟨[("/tmp/test.pid", "garbage\n")], fun _ => false, 1234⟩

/-! # Theorems -/

/-! ## Digit and field parsing round-trip lemmas -/

/-- Parsing inverts `Nat.digitChar` on single digits. -/
theorem readDigit_digitChar : ∀ d, d < 10 → readDigit (Nat.digitChar d) = some d := by
  decide

/-- Parsing inverts the two-digit zero-padded rendering. -/
theorem read2_pad2 (n : Nat) (h : n < 100) (r : List Char) :
    read2 (pad2 n ++ r) = some (n, r) := by
  have h1 : n / 10 < 10 := by omega
  have h2 : n % 10 < 10 := by omega
  simp [pad2, read2, readDigit_digitChar _ h1, readDigit_digitChar _ h2]
  omega

/-- Parsing inverts the four-digit zero-padded rendering. -/
theorem read4_pad4 (n : Nat) (h : n < 10000) (r : List Char) :
    read4 (pad4 n ++ r) = some (n, r) := by
  have h1 : n / 100 < 100 := by omega
  have h2 : n % 100 < 100 := by omega
  simp [pad4, read4, List.append_assoc, read2_pad2 _ h1, read2_pad2 _ h2]
  omega

theorem expectChar_cons (c : Char) (r : List Char) : expectChar c (c :: r) = some r := by
  simp [expectChar]

/-- A timezone suffix carries no fractional seconds. -/
theorem readFrac_tz (off : Option Int) :
    readFrac (tzChars off) = some (0, tzChars off) := by
  match off with
  | none => rfl
  | some o =>
    simp only [tzChars]
    by_cases h0 : o = 0
    · rw [if_pos h0]; rfl
    · rw [if_neg h0]
      by_cases hp : 0 < o
      · rw [if_pos hp]; rfl
      · rw [if_neg hp]; rfl

theorem parseTzMag_pad (hh mm : Nat) (hh100 : hh < 100) (hmm : mm < 100) :
    parseTzMag (pad2 hh ++ ':' :: pad2 mm) = some (hh * 60 + mm) := by
  have h2 : read2 (pad2 mm) = some (mm, []) := by
    have := read2_pad2 mm hmm []
    simpa using this
  simp [parseTzMag, read2_pad2 _ hh100, h2, Option.bind_eq_bind]

/-- Parsing inverts the timezone rendering for every offset a Python
datetime can carry. -/
theorem parseTzTail_tzChars (off : Option Int)
    (hb : ∀ o ∈ off, o.natAbs ≤ 1439) :
    parseTzTail (tzChars off) = some off := by
  match off with
  | none => rfl
  | some o =>
    have hbo : o.natAbs ≤ 1439 := hb o rfl
    have hdiv : o.natAbs / 60 < 100 := by omega
    have hmod : o.natAbs % 60 < 100 := by omega
    have hmag := parseTzMag_pad (o.natAbs / 60) (o.natAbs % 60) hdiv hmod
    have hsum : o.natAbs / 60 * 60 + o.natAbs % 60 = o.natAbs := by omega
    rw [hsum] at hmag
    simp only [tzChars]
    by_cases h0 : o = 0
    · rw [if_pos h0]; rw [h0]; rfl
    · rw [if_neg h0]
      by_cases hp : 0 < o
      · rw [if_pos hp]
        simp only [parseTzTail, hmag]
        simp only [Option.bind_eq_bind, Option.some_bind, Option.pure_def,
          Option.map_some', Option.some.injEq]
        omega
      · rw [if_neg hp]
        simp only [parseTzTail, hmag]
        simp only [Option.bind_eq_bind, Option.some_bind, Option.pure_def,
          Option.map_some', Option.some.injEq]
        omega

/-- The datetime round trip of the codec pair: parsing the rendered form
of a valid datetime recovers it, with the microsecond component dropped
by the rendering. -/
theorem parse_isoformat (t : PyDateTime) (hv : t.valid = true) :
    parse_datetime (datetime_isoformat t) = some { t with microsecond := 0 } := by
  obtain ⟨y, mo, d, h, mi, se, mic, tz⟩ := t
  simp only [PyDateTime.valid, Bool.and_eq_true, decide_eq_true_eq] at hv
  obtain ⟨⟨⟨⟨⟨⟨⟨⟨⟨⟨hy1, hy2⟩, hm1⟩, hm2⟩, hd1⟩, hd2⟩, hh⟩, hmi⟩, hse⟩, hmic⟩, htz⟩ := hv
  have htzb : ∀ o ∈ tz, o.natAbs ≤ 1439 := by
    intro o ho
    cases tz with
    | none => cases ho
    | some o2 => simp at htz ho; omega
  have r4 := read4_pad4 y (by omega)
  have rmo := read2_pad2 mo (by omega)
  have rd := read2_pad2 d (by omega)
  have rh := read2_pad2 h (by omega)
  have rmi := read2_pad2 mi (by omega)
  have rse := read2_pad2 se (by omega)
  simp only [parse_datetime, datetime_isoformat, datetimeChars, r4, expectChar_cons,
    rmo, rd, rh, rmi, rse, readFrac_tz, parseTzTail_tzChars tz htzb,
    Option.bind_eq_bind, Option.some_bind, Option.pure_def]
  rw [if_pos ⟨hy1, hm1, hm2, hd1, hd2, hh, hmi, hse⟩]

/-! ## Object-level lemmas for the codec -/

/-- Looking a key up after a key-preserving entrywise map. -/
theorem lookup_map_value {β γ : Type} (f : String → β → γ)
    (kvs : List (String × β)) (k : String) :
    (kvs.map (fun kv => (kv.1, f kv.1 kv.2))).lookup k = (kvs.lookup k).map (f k) := by
  induction kvs with
  | nil => rfl
  | cons kv rest ih =>
    obtain ⟨k1, v1⟩ := kv
    by_cases hk : k = k1
    · subst hk
      simp [List.lookup]
    · simp [List.lookup, ih, beq_eq_false_iff_ne.mpr hk]

theorem encodeObj_eq_map (kvs : List (String × JValue)) :
    encodeObj kvs = kvs.map (fun kv => (kv.1, encodeValue kv.2)) := by
  induction kvs with
  | nil => rfl
  | cons kv rest ih => obtain ⟨k, v⟩ := kv; simp [encodeObj, ih]

theorem decodeObj_eq_map (kvs : List (String × JValue)) :
    decodeObj kvs = kvs.map (fun kv => (kv.1, decodeValue kv.2)) := by
  induction kvs with
  | nil => rfl
  | cons kv rest ih => obtain ⟨k, v⟩ := kv; simp [decodeObj, ih]

/-- Encoding and decoding an object acts entrywise. -/
theorem dumps_loads_obj (kvs : List (String × JValue)) :
    objEntries (loads (dumps (.jobj kvs))) =
      kvs.map (fun kv => (kv.1, convertEntry kv.1 (decodeValue (encodeValue kv.2)))) := by
  simp only [dumps, loads, encodeValue, decodeValue, ToAttrDict, objEntries,
    encodeObj_eq_map, decodeObj_eq_map, List.map_map]
  rfl

/-! ## Claims C1 and C2 -/

/-- C1 (amended): for every valid datetime `t` whose microsecond
component is zero, encoding a document that holds `t` under a key ending
in `time` with `dumps` and decoding the result with `loads` yields, at
that key, a datetime equal to `t`.  (The rendering format has no
microsecond field, which is what forces the zero-microsecond
hypothesis; see the counterexample.) -/
theorem C1_roundtrip_time_key (kvs : List (String × JValue)) (k : String)
    (t : PyDateTime)
    (hk : strEndsWith k "time" = true)
    (hl : kvs.lookup k = some (.jdatetime t))
    (hv : t.valid = true)
    (hm : t.microsecond = 0) :
    (objEntries (loads (dumps (.jobj kvs)))).lookup k = some (.jdatetime t) := by
  rw [dumps_loads_obj]
  rw [lookup_map_value (fun k2 v => convertEntry k2 (decodeValue (encodeValue v))) kvs k]
  rw [hl]
  simp only [Option.map_some']
  have hmh : matchesHeuristic k = true := by
    simp [matchesHeuristic, hk]
  simp only [encodeValue, decodeValue, convertEntry, hmh, if_pos, if_true]
  rw [parse_isoformat t hv]
  cases t
  simp only [PyDateTime.mk.injEq] at hm ⊢
  simp [hm]

/-- C1 witness: the round trip at the instant used by the tests of the
repository (offset -08:00). -/
theorem C1_roundtrip_time_key_witness :
    (objEntries (loads (dumps (.jobj
        [("time", .jdatetime ⟨2010, 6, 11, 23, 1, 1, 0, some (-480)⟩)])))).lookup "time" =
      some (.jdatetime ⟨2010, 6, 11, 23, 1, 1, 0, some (-480)⟩) :=
  C1_roundtrip_time_key _ _ _ (by decide) (by rfl) (by decide) rfl

/-- C1 counterexample: a datetime with a nonzero microsecond component
does not round trip — the decoded value is the truncation to whole
seconds, not the original value.  This refutes the claim as stated,
which quantifies over every datetime. -/
theorem C1_cex_microseconds :
    (objEntries (loads (dumps (.jobj [("time", .jdatetime tMicro)])))).lookup "time" ≠
        some (.jdatetime tMicro) ∧
      (objEntries (loads (dumps (.jobj [("time", .jdatetime tMicro)])))).lookup "time" =
        some (.jdatetime tTrunc) := by
  constructor
  · intro hcontra
    rw [show (objEntries (loads (dumps (.jobj [("time", .jdatetime tMicro)])))).lookup "time" =
        some (.jdatetime tTrunc) from rfl] at hcontra
    injection hcontra with h1
    injection h1 with h2
    exact absurd h2 (by decide)
  · rfl

/-- C2: in every mapping handed to the decode hook, a string-valued
entry whose key ends with `date`, ends with `time`, starts with `date`
or starts with `last_login` is parsed as an ISO-8601 datetime, the
original string being kept unchanged when the parse fails (the error is
swallowed); an entry whose key does not match the heuristic is returned
unchanged. -/
theorem C2_decode_heuristic (kvs : List (String × JValue)) (k : String) (s : String)
    (hl : kvs.lookup k = some (.jstr s)) :
    (objEntries (ToAttrDict (.jobj kvs))).lookup k =
      some (if strEndsWith k "date" || strEndsWith k "time" ||
               strStartsWith k "date" || strStartsWith k "last_login" then
              match parse_datetime s with
              | some t => JValue.jdatetime t
              | none => JValue.jstr s
            else JValue.jstr s) := by
  simp only [ToAttrDict, objEntries]
  rw [lookup_map_value convertEntry kvs k, hl]
  simp only [Option.map_some']
  rfl

/-- C2 witness: the malformed timestamp of the decode test of the
repository stays the literal string. -/
theorem C2_decode_heuristic_witness :
    (objEntries (ToAttrDict (.jobj
        [("iso_time", .jstr "2010-06-11T23:01:01-08:00"),
         ("bad_time", .jstr "123-45")]))).lookup "bad_time" =
      some (if strEndsWith "bad_time" "date" || strEndsWith "bad_time" "time" ||
               strStartsWith "bad_time" "date" || strStartsWith "bad_time" "last_login" then
              match parse_datetime "123-45" with
              | some t => JValue.jdatetime t
              | none => JValue.jstr "123-45"
            else JValue.jstr "123-45") :=
  C2_decode_heuristic _ _ _ (by rfl)

/-! ## Claim C3: the Enum factory -/

theorem specOrdinals_cons (item : EnumItem) (rest : List EnumItem) (i : Int) :
    specOrdinals (item :: rest) i =
      item.resolve i :: specOrdinals rest ((item.resolve i).2 + 1) := by
  cases item <;> rfl

/-- The construction loop succeeds exactly when the resolved ordinals
are mutually distinct and avoid the ordinals already used, and then
returns the resolved assignment. -/
theorem enumAssign_eq (defs : List EnumItem) : ∀ (i : Int) (used : List Int),
    enumAssign defs i used =
      if ((specOrdinals defs i).map Prod.snd).Nodup ∧
          ∀ x ∈ (specOrdinals defs i).map Prod.snd, x ∉ used
      then some (specOrdinals defs i) else none := by
  induction defs with
  | nil =>
    intro i used
    simp [enumAssign, specOrdinals]
  | cons item rest ih =>
    intro i used
    rw [specOrdinals_cons]
    simp only [enumAssign]
    by_cases hmem : (item.resolve i).2 ∈ used
    · rw [if_pos hmem, if_neg]
      intro ⟨hnd, hout⟩
      exact hout (item.resolve i).2 (by simp) hmem
    · rw [if_neg hmem, ih ((item.resolve i).2 + 1) ((item.resolve i).2 :: used)]
      by_cases hc : ((specOrdinals rest ((item.resolve i).2 + 1)).map Prod.snd).Nodup ∧
          ∀ x ∈ (specOrdinals rest ((item.resolve i).2 + 1)).map Prod.snd,
            x ∉ (item.resolve i).2 :: used
      · rw [if_pos hc, if_pos]
        · simp
        · obtain ⟨hnd, hout⟩ := hc
          refine ⟨?_, ?_⟩
          · simp only [List.map_cons, List.nodup_cons]
            refine ⟨fun hx => ?_, hnd⟩
            exact (hout _ hx) (by simp)
          · intro x hx
            simp only [List.map_cons, List.mem_cons] at hx
            rcases hx with hx | hx
            · rw [hx]; exact hmem
            · intro hu
              exact (hout x hx) (by simp [hu])
      · rw [if_neg hc, if_neg]
        · simp
        · intro hcond
          obtain ⟨hnd, hout⟩ := hcond
          apply hc
          simp only [List.map_cons, List.nodup_cons] at hnd
          refine ⟨hnd.2, ?_⟩
          intro x hx
          simp only [List.mem_cons, not_or]
          refine ⟨fun he => hnd.1 (he ▸ hx), hout x (by simp [hx])⟩

/-- C3: every constant set `Enum` produces carries the ordinals assigned
sequentially from 0 with an explicit override resetting the counter to
the override plus one (`specOrdinals`), and the construction fails
(assertion) exactly when the argument list is empty or two entries
resolve to the same ordinal. -/
theorem C3_enum_ordinals (defs : List EnumItem) :
    (∀ l, Enum defs = some l → l = specOrdinals defs 0) ∧
    ((Enum defs).isSome ↔
      defs ≠ [] ∧ ((specOrdinals defs 0).map Prod.snd).Nodup) := by
  have he := enumAssign_eq defs 0 []
  simp only [List.not_mem_nil, not_false_iff, implies_true, and_true] at he
  constructor
  · intro l hl
    rw [Enum] at hl
    by_cases hd : defs = []
    · rw [if_pos hd] at hl; cases hl
    · rw [if_neg hd, he] at hl
      by_cases hnd : ((specOrdinals defs 0).map Prod.snd).Nodup
      · rw [if_pos hnd] at hl
        exact (Option.some.inj hl).symm
      · rw [if_neg hnd] at hl; cases hl
  · rw [Enum]
    by_cases hd : defs = []
    · rw [if_pos hd]; simp [hd]
    · rw [if_neg hd, he]
      by_cases hnd : ((specOrdinals defs 0).map Prod.snd).Nodup
      · rw [if_pos hnd]; simp [hd, hnd]
      · rw [if_neg hnd]; simp [hd, hnd]

/-! ## Claims C7 and C8: EnumValue operations -/

/-- The ordinals of an all-plain declaration are consecutive from the
starting counter. -/
theorem specOrdinals_plain (names : List String) : ∀ i : Int,
    (specOrdinals (names.map EnumItem.plain) i).map Prod.snd =
      (List.range names.length).map (fun j : Nat => i + (j : Int)) := by
  induction names with
  | nil => intro i; rfl
  | cons n rest ih =>
    intro i
    simp only [List.map_cons, specOrdinals, List.length_cons, List.range_succ_eq_map,
      List.map_map, ih (i + 1)]
    congr 1
    · omega
    · apply List.map_congr_left
      intro j hj
      simp only [Function.comp_apply]
      omega

theorem foldl_max_spec (rest : List (String × Int)) : ∀ a : Int,
    (rest.foldl (fun m q => max m q.2) a = a ∨
      rest.foldl (fun m q => max m q.2) a ∈ rest.map Prod.snd) ∧
    a ≤ rest.foldl (fun m q => max m q.2) a ∧
    ∀ x ∈ rest.map Prod.snd, x ≤ rest.foldl (fun m q => max m q.2) a := by
  induction rest with
  | nil => intro a; simp
  | cons q rest ih =>
    intro a
    obtain ⟨h1, h2, h3⟩ := ih (max a q.2)
    simp only [List.foldl_cons, List.map_cons, List.mem_cons]
    refine ⟨?_, ?_, ?_⟩
    · rcases h1 with h | h
      · rcases max_choice a q.2 with he | he
        · left; rw [h, he]
        · right; left; rw [h, he]
      · right; right; exact h
    · exact le_trans (le_max_left _ _) h2
    · intro x hx
      rcases hx with hx | hx
      · exact le_trans (hx ▸ le_max_right a q.2) h2
      · exact h3 x hx

/-- `maxOrdinal` is the greatest ordinal of a nonempty constant set. -/
theorem maxOrdinal_spec (l : List (String × Int)) (hne : l ≠ []) :
    maxOrdinal l ∈ ordinalsOf l ∧ ∀ x ∈ ordinalsOf l, x ≤ maxOrdinal l := by
  match l with
  | p :: rest =>
    obtain ⟨h1, h2, h3⟩ := foldl_max_spec rest p.2
    simp only [maxOrdinal, ordinalsOf, List.map_cons, List.mem_cons]
    refine ⟨?_, ?_⟩
    · rcases h1 with h | h
      · left; exact h
      · right; exact h
    · intro x hx
      rcases hx with hx | hx
      · exact hx ▸ h2
      · exact h3 x hx

/-- C7 (amended): bitwise inversion maps a constant of ordinal `v` to
the constant of ordinal `(number of entries - 1) - v` and fails with a
lookup error when no constant carries that ordinal; when no explicit
ordinal overrides are used, that target equals the maximum ordinal of
the set minus `v` and the inversion of every in-range ordinal succeeds.
Truthiness is false exactly for ordinal 0, and the hash is the hash of
the ordinal. -/
theorem C7_enum_value_ops :
    (∀ (l : List (String × Int)) (n : Nat) (v : Int),
      (EnumInvert l n v).isSome ↔ ((n : Int) - 1 - v) ∈ ordinalsOf l) ∧
    (∀ (l : List (String × Int)) (n : Nat) (v t : Int),
      EnumInvert l n v = some t → t = (n : Int) - 1 - v) ∧
    (∀ (names : List String) (v : Int), names ≠ [] → 0 ≤ v →
      v ≤ (names.length : Int) - 1 →
      EnumInvert (specOrdinals (names.map .plain) 0) names.length v =
        some (maxOrdinal (specOrdinals (names.map .plain) 0) - v) ∧
      maxOrdinal (specOrdinals (names.map .plain) 0) = (names.length : Int) - 1) ∧
    (∀ v : Int, pyBool v = false ↔ v = 0) ∧
    (∀ (pyHash : Int → Int) (e : EnumValue), enumHash pyHash e = pyHash e.value) := by
  have hgen : ∀ (l : List (String × Int)) (n : Nat) (v : Int),
      (EnumInvert l n v).isSome ↔ ((n : Int) - 1 - v) ∈ ordinalsOf l := by
    intro l n v
    by_cases hm : ((n : Int) - 1 - v) ∈ ordinalsOf l <;> simp [EnumInvert, hm]
  refine ⟨hgen, ?_, ?_, ?_, ?_⟩
  · intro l n v t ht
    by_cases hm : ((n : Int) - 1 - v) ∈ ordinalsOf l
    · rw [EnumInvert, if_pos hm] at ht
      exact (Option.some.inj ht).symm
    · rw [EnumInvert, if_neg hm] at ht
      cases ht
  · intro names v hne h0 hub
    have hlen : 1 ≤ names.length := by
      cases names with
      | nil => exact absurd rfl hne
      | cons a b => simp
    have hords := specOrdinals_plain names 0
    have hne2 : specOrdinals (names.map .plain) 0 ≠ [] := by
      intro h
      rw [h] at hords
      cases names with
      | nil => exact absurd rfl hne
      | cons a b =>
        simp [List.range_succ_eq_map] at hords
    have hmem : ∀ x : Int, x ∈ ordinalsOf (specOrdinals (names.map .plain) 0) ↔
        0 ≤ x ∧ x ≤ (names.length : Int) - 1 := by
      intro x
      rw [ordinalsOf, hords]
      simp only [List.mem_map, List.mem_range]
      constructor
      · rintro ⟨j, hj, rfl⟩; omega
      · intro ⟨hx0, hx1⟩
        refine ⟨x.toNat, by omega, by omega⟩
    have hmax : maxOrdinal (specOrdinals (names.map .plain) 0) =
        (names.length : Int) - 1 := by
      obtain ⟨h1, h2⟩ := maxOrdinal_spec _ hne2
      have hb1 := (hmem _).mp h1
      have hb2 := h2 _ ((hmem ((names.length : Int) - 1)).mpr (by omega))
      omega
    refine ⟨?_, hmax⟩
    rw [EnumInvert, if_pos ((hmem _).mpr (by omega)), hmax]
  · intro v; simp [pyBool]
  · intro pyHash e; rfl

/-- C7 counterexample: over `Enum(("a", 0), ("b", 2))` the constant of
ordinal 2 exists and the maximum ordinal minus 0 is 2, yet inverting the
constant of ordinal 0 raises a lookup error (the code indexes with
`len(names) - 1 - v = 1`, not with the maximum ordinal), refuting the
claim as stated. -/
theorem C7_cex_invert :
    Enum [.withIdx "a" 0, .withIdx "b" 2] = some [("a", 0), ("b", 2)] ∧
    maxOrdinal [("a", 0), ("b", 2)] - 0 = 2 ∧
    ((2 : Int)) ∈ ordinalsOf [("a", 0), ("b", 2)] ∧
    EnumInvert [("a", 0), ("b", 2)] 2 0 = none := by
  refine ⟨by decide, by decide, by decide, by decide⟩

/-- C8: ordering comparison of constants drawn from two different
enumerated sets fails (the identity assertion on the owning sets)
instead of returning a result. -/
theorem C8_cross_enum_cmp (a b : EnumValue) (h : a.setId ≠ b.setId) :
    EnumValue.cmp a b = none := by
  simp [EnumValue.cmp, h]

/-- C8 witness: comparing constants of two distinct sets fails. -/
theorem C8_cross_enum_cmp_witness : EnumValue.cmp ⟨0, 0⟩ ⟨1, 0⟩ = none :=
  C8_cross_enum_cmp _ _ (by decide)

/-! ## Claims C4, C5 and C6: the declarative record system -/

/-- C4 counterexample: constructing a record over the field set
`demoFields = [a]` with the initializer mapping `[b: 1]` does not fail
with a lookup error — `setattr` silently stores the unknown name as a
plain instance attribute and the field-value mapping keeps only the
declared field, unset.  This refutes the claim for the construction
paths. -/
theorem C4_cex_silent_construction :
    msgInit demoFields (some [("b", PyVal.vint 1)]) [] =
      .ok ⟨demoFields, [("a", PyVal.vnone)], [("b", PyVal.vint 1)]⟩ := by
  rfl

/-- C4 (amended): `SetValue` with a field name not declared on the
record fails with a lookup error; the construction paths (initializer
mapping or keyword overrides routed through `setattr`) silently store an
undeclared name as an ordinary instance attribute and leave the
field-value mapping untouched. -/
theorem C4_undeclared_fields :
    (∀ (st : MsgState) (k : String) (v : PyVal),
      st.values.lookup k = none → msgSetValue st k v = .error .keyError) ∧
    (∀ (st : MsgState) (k : String) (v : PyVal),
      st.fields.lookup k = none →
      msgSetattr st k v = .ok { st with extra := setAssoc st.extra k v }) := by
  constructor
  · intro st k v h
    simp [msgSetValue, h]
  · intro st k v h
    simp [msgSetattr, h]

/-- C5: writing a declared field routes the value through the field
descriptor `ParseValue`; when it rejects the value the write fails with
a validation error and no successor state exists (the record stays in
its prior state), and when it succeeds the possibly normalized result is
what gets stored. -/
theorem C5_parse_on_write (st : MsgState) (k : String) (v : PyVal) (f : BaseField)
    (hf : st.fields.lookup k = some f) :
    (∀ e, f.ParseValue v = .error e →
      msgSetattr st k v = .error (.valueError e)) ∧
    (∀ v2, f.ParseValue v = .ok v2 →
      msgSetattr st k v = .ok { st with values := setAssoc st.values k v2 }) := by
  constructor <;> intro x hx <;> simp [msgSetattr, hf, hx]

/-- C5 witness: over a field rejecting non-integers, writing a string
fails with the validation error and writing an integer stores it. -/
theorem C5_parse_on_write_witness :
    msgSetattr demoIntSt "a" (PyVal.vstr "x") = .error (.valueError "InvalidFieldValue") ∧
    msgSetattr demoIntSt "a" (PyVal.vint 3) =
      .ok { demoIntSt with values := setAssoc demoIntSt.values "a" (PyVal.vint 3) } :=
  ⟨(C5_parse_on_write demoIntSt "a" (PyVal.vstr "x") intOnlyField rfl).1 _ rfl,
   (C5_parse_on_write demoIntSt "a" (PyVal.vint 3) intOnlyField rfl).2 _ rfl⟩

/-- C6 counterexample: a record state whose only descriptor rejects
every value (reachable through `SetValue`, which bypasses validation)
can still be read through the accessor: the read returns the stored
value even though every invocation of the validation rule fails, so
reading does not invoke the rule.  This refutes the claim, which states
that reading invokes it. -/
theorem C6_cex_read_no_validation :
    msgSetValue demoRejSt "a" (PyVal.vint 7) = .ok demoRejSt7 ∧
    msgGetattr demoRejSt7 "a" = .ok (PyVal.vint 7) ∧
    rejectField.ParseValue (PyVal.vint 7) = .error "InvalidFieldValue" :=
  ⟨rfl, rfl, rfl⟩

/-- C6 (amended): writing a declared field through its accessor invokes
the field descriptor validation rule (`ParseValue`); reading through the
accessor returns the stored value and does not consult the descriptor —
two records agreeing on stored values read identically whatever their
descriptors are. -/
theorem C6_accessor_validation :
    (∀ (st : MsgState) (k : String) (v : PyVal) (f : BaseField),
      st.fields.lookup k = some f →
      msgSetattr st k v =
        (match f.ParseValue v with
         | .error e => .error (.valueError e)
         | .ok v2 => .ok { st with values := setAssoc st.values k v2 })) ∧
    (∀ (st1 st2 : MsgState) (k : String),
      st1.values = st2.values →
      (st1.fields.lookup k).isSome → (st2.fields.lookup k).isSome →
      msgGetattr st1 k = msgGetattr st2 k) := by
  constructor
  · intro st k v f hf
    cases hp : f.ParseValue v <;> simp [msgSetattr, hf, hp]
  · intro st1 st2 k hv h1 h2
    rw [Option.isSome_iff_exists] at h1 h2
    obtain ⟨f1, hf1⟩ := h1
    obtain ⟨f2, hf2⟩ := h2
    simp [msgGetattr, hf1, hf2, hv]

/-! ## Claim C9: PID file lifecycle -/

theorem lookup_setAssoc {β : Type} (l : List (String × β)) (k : String) (v : β) :
    (setAssoc l k v).lookup k = some v := by
  induction l with
  | nil => simp [setAssoc, List.lookup]
  | cons p rest ih =>
    obtain ⟨k1, v1⟩ := p
    by_cases h : k1 = k
    · subst h; simp [setAssoc, List.lookup]
    · simp [setAssoc, h, List.lookup, ih, beq_eq_false_iff_ne.mpr (Ne.symm h)]

theorem lookup_filter_ne (l : List (String × String)) (k : String) :
    (l.filter (fun p => p.1 ≠ k)).lookup k = none := by
  induction l with
  | nil => rfl
  | cons p rest ih =>
    obtain ⟨k1, v1⟩ := p
    by_cases h : k1 = k
    · simp [List.filter, h, ih]
      intro a b hmem hne he
      exact hne he.symm
    · simp [List.filter, h, List.lookup, ih, beq_eq_false_iff_ne.mpr (Ne.symm h)]
      intro a b hmem hne he
      exact hne he.symm

/-- C9 counterexample: with a configured PID file whose existing content
is not an integer (no still-alive recorded process id — the content
records nothing), startup exits with code 1 instead of rewriting the
file with the current pid as the claim states. -/
theorem C9_cex_unparseable_pidfile :
    CheckAndRecordPid demoFlags demoSysGarbage = .error 1 ∧
    pyInt (firstLine "garbage\n") = none ∧
    demoSysGarbage.fs.lookup demoFlags.pidfile = some "garbage\n" := by
  refine ⟨rfl, rfl, rfl⟩

/-- C9 (amended): with a PID file path configured, startup aborts with
exit code 1 when the file exists and records a still-alive process id,
and also when the existing content does not parse as an integer; in the
remaining cases (no file, or a recorded pid that is no longer alive) the
current process id is written to the file as a single newline-terminated
decimal line.  An aborting check makes `Start` exit with the same code
before the main loop or teardown run; once `Quit` has set the quit flag
the main loop exits and teardown deletes the PID file. -/
theorem C9_pidfile_lifecycle :
    (∀ (fl : AppFlags) (sys : SysState) (content : String) (old : Int),
      fl.pidfile ≠ "" → sys.fs.lookup fl.pidfile = some content →
      pyInt (firstLine content) = some old → sys.alive old = true →
      CheckAndRecordPid fl sys = .error 1) ∧
    (∀ (fl : AppFlags) (sys : SysState) (content : String),
      fl.pidfile ≠ "" → sys.fs.lookup fl.pidfile = some content →
      pyInt (firstLine content) = none →
      CheckAndRecordPid fl sys = .error 1) ∧
    (∀ (fl : AppFlags) (sys : SysState),
      fl.pidfile ≠ "" →
      (sys.fs.lookup fl.pidfile = none ∨
        ∃ content old, sys.fs.lookup fl.pidfile = some content ∧
          pyInt (firstLine content) = some old ∧ sys.alive old = false) →
      CheckAndRecordPid fl sys =
        .ok { sys with fs := setAssoc sys.fs fl.pidfile (toString sys.myPid ++ "\n") } ∧
      (setAssoc sys.fs fl.pidfile (toString sys.myPid ++ "\n")).lookup fl.pidfile =
        some (toString sys.myPid ++ "\n")) ∧
    (∀ (fl : AppFlags) (st : AppState) (c : Nat),
      CheckAndRecordPid fl st.sys = .error c → Start fl st = .error c) ∧
    (∀ (fl : AppFlags) (st : AppState) (sys2 : SysState),
      st.doQuit = true → CheckAndRecordPid fl st.sys = .ok sys2 →
      Start fl st = .ok ⟨Teardown fl sys2, true⟩) ∧
    (∀ (fl : AppFlags) (sys : SysState),
      fl.pidfile ≠ "" → (Teardown fl sys).fs.lookup fl.pidfile = none) := by
  refine ⟨?_, ?_, ?_, ?_, ?_, ?_⟩
  · intro fl sys content old hp hl hi ha
    simp [CheckAndRecordPid, hp, hl, hi, ha]
  · intro fl sys content hp hl hi
    simp [CheckAndRecordPid, hp, hl, hi]
  · intro fl sys hp hcase
    refine ⟨?_, lookup_setAssoc _ _ _⟩
    rcases hcase with hnone | ⟨content, old, hl, hi, hd⟩
    · simp [CheckAndRecordPid, hp, hnone]
    · simp [CheckAndRecordPid, hp, hl, hi, hd]
  · intro fl st c hc
    simp [Start, hc]
  · intro fl st sys2 hq hc
    simp [Start, hc, appMainLoop, hq]
  · intro fl sys hp
    simp only [Teardown, if_neg hp]
    exact lookup_filter_ne _ _

/-! ## Claim C10: SimpleGraph.ShortestPath -/

theorem succList_mem (g : List (Nat × Nat)) (a b : Nat) :
    b ∈ succList g a ↔ (a, b) ∈ g := by
  simp only [succList, List.mem_dedup, List.mem_map, List.mem_filter]
  constructor
  · rintro ⟨⟨x, y⟩, ⟨hxy, he⟩, rfl⟩
    simp only [decide_eq_true_eq] at he
    subst he
    exact hxy
  · intro h
    exact ⟨(a, b), ⟨h, by simp⟩, rfl⟩

theorem avail_le (g : List (Nat × Nat)) (l : List Nat) :
    avail g l ≤ ((g.map Prod.snd).dedup).length := by
  rw [avail, ← List.card_toFinset]
  exact Finset.card_le_card (Finset.sdiff_subset)

/-- Extending the path by a fresh edge target strictly shrinks the
supply of usable vertices (the termination measure of the recursion). -/
theorem avail_append_lt (g : List (Nat × Nat)) (l : List Nat) (n : Nat)
    (hn : n ∈ g.map Prod.snd) (hnl : n ∉ l) :
    avail g (l ++ [n]) < avail g l := by
  have he : (l ++ [n]).toFinset = insert n l.toFinset := by
    ext x
    simp [or_comm]
  rw [avail, avail, he, Finset.sdiff_insert]
  apply Finset.card_lt_card
  apply Finset.erase_ssubset
  simp [Finset.mem_sdiff, hn, hnl]

/-- Soundness of the successor loop: a produced path extends the
current path by a repetition-free walk from `s` to `e` that avoids it,
provided the accumulator already does. -/
theorem tryNodes_sound (g : List (Nat × Nat)) (fuel : Nat) (e s : Nat) (path : List Nat)
    (hs : s ∉ path)
    (IH : ∀ s2 path2 p2, shortestPathAux g fuel s2 e path2 = some p2 → s2 ∉ path2 →
      ∃ q, p2 = path2 ++ q ∧ SimpleFrom g q s2 e path2) :
    ∀ (nodes : List Nat) (acc : Option (List Nat)) (p : List Nat),
      (∀ n ∈ nodes, (s, n) ∈ g) →
      (∀ pa, acc = some pa → ∃ q, pa = path ++ q ∧ SimpleFrom g q s e path) →
      tryNodes g fuel nodes e (path ++ [s]) acc = some p →
      ∃ q, p = path ++ q ∧ SimpleFrom g q s e path := by
  intro nodes
  induction nodes with
  | nil =>
    intro acc p hedge hacc hrun
    simp only [tryNodes] at hrun
    exact hacc p hrun
  | cons node rest ihn =>
    intro acc p hedge hacc hrun
    simp only [tryNodes] at hrun
    by_cases hmem : node ∈ path ++ [s]
    · rw [if_pos hmem] at hrun
      exact ihn acc p (fun n hn => hedge n (List.mem_cons_of_mem _ hn)) hacc hrun
    · rw [if_neg hmem] at hrun
      refine ihn _ p (fun n hn => hedge n (List.mem_cons_of_mem _ hn)) ?_ hrun
      intro pa hpa
      match hchild : shortestPathAux g fuel node e (path ++ [s]) with
      | none =>
        simp only [hchild] at hpa
        exact hacc pa hpa
      | some newpath =>
        simp only [hchild] at hpa
        have hnew : ∃ q, newpath = path ++ q ∧ SimpleFrom g q s e path := by
          obtain ⟨qc, hq1, hq2⟩ := IH node (path ++ [s]) newpath hchild hmem
          obtain ⟨hhead, hlast, hchain, hnd, havoid⟩ := hq2
          have hqcne : qc ≠ [] := by
            intro hqc; rw [hqc] at hhead; cases hhead
          refine ⟨s :: qc, by simp [hq1], ?_, ?_, ?_, ?_, ?_⟩
          · rfl
          · rw [List.getLast?_cons, hlast]
            cases qc with
            | nil => exact absurd rfl hqcne
            | cons a b => simp
          · rw [List.chain'_cons']
            refine ⟨?_, hchain⟩
            intro y hy
            rw [hhead] at hy
            cases hy
            exact hedge node (List.mem_cons_self _ _)
          · rw [List.nodup_cons]
            refine ⟨fun hsq => havoid s hsq (by simp), hnd⟩
          · intro x hx
            rcases List.mem_cons.mp hx with rfl | hx
            · exact hs
            · intro hxp
              exact havoid x hx (by simp [hxp])
        match acc, hacc with
        | none, _ =>
          simp only [Option.some.injEq] at hpa
          exact hpa ▸ hnew
        | some sp, hacc =>
          simp only at hpa
          by_cases hlt : newpath.length < sp.length
          · rw [if_pos hlt, Option.some.injEq] at hpa
            exact hpa ▸ hnew
          · rw [if_neg hlt, Option.some.injEq] at hpa
            exact hacc pa (by rw [hpa])

/-- Every path produced by the recursion is the current path extended
by a repetition-free walk from `start` to `end` avoiding it. -/
theorem shortestPathAux_sound (g : List (Nat × Nat)) :
    ∀ (fuel : Nat) (s e : Nat) (path p : List Nat),
      shortestPathAux g fuel s e path = some p → s ∉ path →
      ∃ q, p = path ++ q ∧ SimpleFrom g q s e path := by
  intro fuel
  induction fuel with
  | zero =>
    intro s e path p hrun
    simp [shortestPathAux] at hrun
  | succ fuel ih =>
    intro s e path p hrun hs
    simp only [shortestPathAux] at hrun
    by_cases hse : s = e
    · rw [if_pos hse, Option.some.injEq] at hrun
      subst hse
      refine ⟨[s], hrun.symm, rfl, rfl, ?_, List.nodup_singleton s, ?_⟩
      · simp
      · intro x hx
        rcases List.mem_singleton.mp hx with rfl
        exact hs
    · rw [if_neg hse] at hrun
      refine tryNodes_sound g fuel e s path hs
        (fun s2 path2 p2 h2 hn2 => ih s2 e path2 p2 h2 hn2)
        (succList g s) none p ?_ ?_ hrun
      · intro n hn
        exact (succList_mem g s n).mp hn
      · intro pa hpa
        cases hpa

/-- The successor loop result is no longer than whatever the
accumulator already holds. -/
theorem tryNodes_le_acc (g : List (Nat × Nat)) (fuel : Nat) (e : Nat) (path2 : List Nat) :
    ∀ (nodes : List Nat) (acc : Option (List Nat)) (pa : List Nat), acc = some pa →
      ∃ p, tryNodes g fuel nodes e path2 acc = some p ∧ p.length ≤ pa.length := by
  intro nodes
  induction nodes with
  | nil =>
    intro acc pa hacc
    exact ⟨pa, by simp [tryNodes, hacc], le_refl _⟩
  | cons node rest ihn =>
    intro acc pa hacc
    simp only [tryNodes]
    by_cases hmem : node ∈ path2
    · rw [if_pos hmem]
      exact ihn acc pa hacc
    · rw [if_neg hmem]
      subst hacc
      match hchild : shortestPathAux g fuel node e path2 with
      | none =>
        simp only [hchild]
        exact ihn _ pa rfl
      | some newpath =>
        simp only [hchild]
        by_cases hlt : newpath.length < pa.length
        · rw [if_pos hlt]
          obtain ⟨p, hp1, hp2⟩ := ihn _ newpath rfl
          exact ⟨p, hp1, le_trans hp2 (le_of_lt hlt)⟩
        · rw [if_neg hlt]
          exact ihn _ pa rfl

/-- The successor loop result is no longer than any recursive result of
a listed successor that is not skipped. -/
theorem tryNodes_min_child (g : List (Nat × Nat)) (fuel : Nat) (e : Nat) (path2 : List Nat) :
    ∀ (nodes : List Nat) (acc : Option (List Nat)) (n : Nat) (pc : List Nat),
      n ∈ nodes → n ∉ path2 → shortestPathAux g fuel n e path2 = some pc →
      ∃ p, tryNodes g fuel nodes e path2 acc = some p ∧ p.length ≤ pc.length := by
  intro nodes
  induction nodes with
  | nil =>
    intro acc n pc hn
    cases hn
  | cons node rest ihn =>
    intro acc n pc hn hnp hchild
    simp only [tryNodes]
    rcases List.mem_cons.mp hn with rfl | hn2
    · rw [if_neg hnp]
      match acc with
      | none =>
        simp only [hchild]
        obtain ⟨p, hp1, hp2⟩ := tryNodes_le_acc g fuel e path2 rest (some pc) pc rfl
        exact ⟨p, hp1, hp2⟩
      | some sp =>
        simp only [hchild]
        by_cases hlt : pc.length < sp.length
        · rw [if_pos hlt]
          exact tryNodes_le_acc g fuel e path2 rest (some pc) pc rfl
        · rw [if_neg hlt]
          obtain ⟨p, hp1, hp2⟩ := tryNodes_le_acc g fuel e path2 rest (some sp) sp rfl
          exact ⟨p, hp1, le_trans hp2 (by omega)⟩
    · by_cases hmem : node ∈ path2
      · rw [if_pos hmem]
        exact ihn acc n pc hn2 hnp hchild
      · rw [if_neg hmem]
        exact ihn _ n pc hn2 hnp hchild

/-- Completeness and minimality: if a repetition-free walk from `s` to
`e` avoiding the current path exists and the fuel dominates the supply
of fresh vertices, the recursion succeeds with a result no longer than
that walk (on top of the current path). -/
theorem shortestPathAux_min (g : List (Nat × Nat)) :
    ∀ (fuel : Nat) (s e : Nat) (path q : List Nat),
      avail g (path ++ [s]) < fuel →
      SimpleFrom g q s e path →
      ∃ p, shortestPathAux g fuel s e path = some p ∧ p.length ≤ path.length + q.length := by
  intro fuel
  induction fuel with
  | zero =>
    intro s e path q hfuel
    omega
  | succ fuel ih =>
    intro s e path q hfuel hsf
    obtain ⟨hhead, hlast, hchain, hnd, havoid⟩ := hsf
    simp only [shortestPathAux]
    by_cases hse : s = e
    · rw [if_pos hse]
      refine ⟨path ++ [s], rfl, ?_⟩
      have hq : q ≠ [] := by
        intro h; rw [h] at hhead; cases hhead
      have : 1 ≤ q.length := by
        cases q with
        | nil => exact absurd rfl hq
        | cons a b => simp
      simp
      omega
    · rw [if_neg hse]
      match q, hhead with
      | s2 :: q1, hhead =>
        have hs2 : s2 = s := by
          rw [List.head?_cons, Option.some.injEq] at hhead
          exact hhead
        subst hs2
        match q1, hlast with
        | [], hlast =>
          rw [List.getLast?_singleton, Option.some.injEq] at hlast
          exact absurd hlast hse
        | n2 :: q2, hlast =>
          have hedge : (s2, n2) ∈ g := (List.chain'_cons.mp hchain).1
          have hn2succ : n2 ∈ succList g s2 := (succList_mem g s2 n2).mpr hedge
          have hnds := List.nodup_cons.mp hnd
          have hn2path2 : n2 ∉ path ++ [s2] := by
            intro hmem
            rcases List.mem_append.mp hmem with hmem | hmem
            · exact havoid n2 (by simp) hmem
            · rcases List.mem_singleton.mp hmem with rfl
              exact hnds.1 (by simp)
          have hsf1 : SimpleFrom g (n2 :: q2) n2 e (path ++ [s2]) := by
            refine ⟨rfl, ?_, (List.chain'_cons.mp hchain).2, hnds.2, ?_⟩
            · rw [← List.getLast?_cons_cons]
              exact hlast
            · intro x hx hmem
              rcases List.mem_append.mp hmem with hmem | hmem
              · exact havoid x (by simp [hx]) hmem
              · rcases List.mem_singleton.mp hmem with rfl
                exact hnds.1 hx
          have hn2targ : n2 ∈ g.map Prod.snd :=
            List.mem_map.mpr ⟨(s2, n2), hedge, rfl⟩
          have havail2 : avail g ((path ++ [s2]) ++ [n2]) < fuel := by
            have h1 := avail_append_lt g (path ++ [s2]) n2 hn2targ hn2path2
            omega
          obtain ⟨pc, hpc1, hpc2⟩ := ih n2 e (path ++ [s2]) (n2 :: q2) havail2 hsf1
          obtain ⟨p, hp1, hp2⟩ :=
            tryNodes_min_child g fuel e (path ++ [s2]) (succList g s2) none n2 pc
              hn2succ hn2path2 hpc1
          refine ⟨p, hp1, ?_⟩
          simp only [List.length_append, List.length_cons, List.length_singleton,
            List.length_nil] at hpc2 ⊢
          omega

/-- De-looping: every walk between two vertices contains a
repetition-free walk between them that is no longer and uses only its
vertices. -/
theorem exists_simple_of_path (g : List (Nat × Nat)) :
    ∀ (N : Nat) (p : List Nat) (s e : Nat), p.length ≤ N → IsPath g p s e →
      ∃ q, IsPath g q s e ∧ q.Nodup ∧ (∀ x ∈ q, x ∈ p) ∧ q.length ≤ p.length := by
  intro N
  induction N with
  | zero =>
    intro p s e hlen hp
    obtain ⟨hhead, _, _⟩ := hp
    match p, hlen with
    | [], _ => cases hhead
  | succ N ihN =>
    intro p s e hlen hp
    obtain ⟨hhead, hlast, hchain⟩ := hp
    match p, hhead with
    | x :: rest, hhead =>
      have hx : x = s := by
        rw [List.head?_cons, Option.some.injEq] at hhead
        exact hhead
      subst hx
      by_cases hmem : x ∈ rest
      · obtain ⟨u, w, huw⟩ := List.append_of_mem hmem
        subst huw
        have hsuf : (x :: w) <:+ (x :: (u ++ x :: w)) := by
          refine ⟨x :: u, ?_⟩
          simp
        have hp2 : IsPath g (x :: w) x e := by
          refine ⟨rfl, ?_, hchain.suffix hsuf⟩
          rw [← hlast]
          rw [show (x :: (u ++ x :: w)) = (x :: u) ++ (x :: w) by simp]
          rw [List.getLast?_append_of_ne_nil _ (by simp)]
        have hlen2 : (x :: w).length ≤ N := by
          simp only [List.length_cons, List.length_append] at hlen ⊢
          omega
        obtain ⟨q, hq1, hq2, hq3, hq4⟩ := ihN (x :: w) x e hlen2 hp2
        refine ⟨q, hq1, hq2, ?_, ?_⟩
        · intro y hy
          rcases List.mem_cons.mp (hq3 y hy) with rfl | hyw
          · exact List.mem_cons_self _ _
          · simp [hyw]
        · simp only [List.length_cons, List.length_append] at hq4 ⊢
          omega
      · match rest, hlast, hchain with
        | [], hlast, _ =>
          rw [List.getLast?_singleton, Option.some.injEq] at hlast
          refine ⟨[x], ⟨rfl, by simp [hlast], by simp⟩, by simp, by simp, by simp⟩
        | y :: rest2, hlast, hchain =>
          have hp2 : IsPath g (y :: rest2) y e := by
            refine ⟨rfl, ?_, (List.chain'_cons.mp hchain).2⟩
            rw [← List.getLast?_cons_cons]
            exact hlast
          have hlen2 : (y :: rest2).length ≤ N := by
            simp only [List.length_cons] at hlen ⊢
            omega
          obtain ⟨q, hq1, hq2, hq3, hq4⟩ := ihN (y :: rest2) y e hlen2 hp2
          obtain ⟨hqh, hql, hqc⟩ := hq1
          have hqne : q ≠ [] := by
            intro h; rw [h] at hqh; cases hqh
          refine ⟨x :: q, ⟨rfl, ?_, ?_⟩, ?_, ?_, ?_⟩
          · rw [List.getLast?_cons, hql]
            cases q with
            | nil => exact absurd rfl hqne
            | cons a b => simp
          · rw [List.chain'_cons']
            refine ⟨?_, hqc⟩
            intro z hz
            rw [hqh] at hz
            rcases Option.some.inj hz with rfl
            exact (List.chain'_cons.mp hchain).1
          · rw [List.nodup_cons]
            exact ⟨fun hxq => hmem (hq3 x hxq), hq2⟩
          · intro z hz
            rcases List.mem_cons.mp hz with rfl | hz2
            · exact List.mem_cons_self _ _
            · exact List.mem_cons_of_mem _ (hq3 z hz2)
          · simp only [List.length_cons] at hq4 ⊢
            omega

/-- C10: for every graph and pair of vertices, `ShortestPath` returns a
repetition-free path of minimal length from start to end — a list
beginning with start, ending with end, each consecutive pair an edge —
and returns `None` exactly when no path (of any kind) exists. -/
theorem C10_shortest_path_correct (g : List (Nat × Nat)) (s e : Nat) :
    (∀ p, ShortestPath g s e = some p →
      IsPath g p s e ∧ p.Nodup ∧ ∀ q, IsPath g q s e → p.length ≤ q.length) ∧
    (ShortestPath g s e = none → ∀ q, ¬ IsPath g q s e) := by
  have havail : avail g ([] ++ [s]) < spFuel g := by
    have h1 := avail_le g ([] ++ [s])
    rw [spFuel]
    omega
  constructor
  · intro p hp
    rw [ShortestPath] at hp
    obtain ⟨q0, hq0, hsf⟩ :=
      shortestPathAux_sound g (spFuel g) s e [] p hp (by simp)
    rw [List.nil_append] at hq0
    subst hq0
    obtain ⟨hh, hl, hc, hnd, _⟩ := hsf
    refine ⟨⟨hh, hl, hc⟩, hnd, ?_⟩
    intro q hq
    obtain ⟨q2, hq2path, hq2nd, hq2sub, hq2len⟩ :=
      exists_simple_of_path g q.length q s e le_rfl hq
    have hsf2 : SimpleFrom g q2 s e [] :=
      ⟨hq2path.1, hq2path.2.1, hq2path.2.2, hq2nd, by simp⟩
    obtain ⟨p2, hp2, hp2len⟩ := shortestPathAux_min g (spFuel g) s e [] q2 havail hsf2
    rw [hp, Option.some.injEq] at hp2
    subst hp2
    simp only [List.length_nil, Nat.zero_add] at hp2len
    omega
  · intro hnone q hq
    rw [ShortestPath] at hnone
    obtain ⟨q2, hq2path, hq2nd, hq2sub, hq2len⟩ :=
      exists_simple_of_path g q.length q s e le_rfl hq
    have hsf2 : SimpleFrom g q2 s e [] :=
      ⟨hq2path.1, hq2path.2.1, hq2path.2.2, hq2nd, by simp⟩
    obtain ⟨p2, hp2, _⟩ := shortestPathAux_min g (spFuel g) s e [] q2 havail hsf2
    rw [hnone] at hp2
    cases hp2
